import Mathlib

/-!
Verification of the montyformat chess game-record codec.

Shallow embedding of the repository's Rust sources:
* `src/format.rs` — `SearchData`, `MontyFormat`, `CompressedChessBoard`,
  `serialise_into_buffer`;
* `src/chess.rs` — `perft`;
* `src/chess/consts.rs` — the `IN_BETWEEN` geometry table and its
  closed-form generator `in_between`.

Machine integers are modelled as `Nat` with explicit `% 2^64` where the Rust
code wraps; `f32` values are modelled as rationals (`ℚ`), with the rounding
of the score-quantization product `score * 65535.0` modelled exactly by
`fl32` (round to nearest, ties to even, 24-bit significand), the remaining
float arithmetic (comparisons, exact power-of-two scalings, the visit
scaling whose claimed properties are rounding-insensitive) by exact rational
arithmetic, and Rust's saturating truncation casts `as u16` / `as u8` made
explicit; fallible code returns an `Except` value alongside the final buffer
contents.
-/

/-- Little-endian bytes of a 16-bit value (`u16::to_le_bytes`). -/
def u16le (n : Nat) : List Nat := [n % 256, n / 2 ^ 8 % 256]

/-- Little-endian bytes of a 64-bit value (`u64::to_le_bytes`). -/
def u64le (n : Nat) : List Nat :=
  [n % 256, n / 2 ^ 8 % 256, n / 2 ^ 16 % 256, n / 2 ^ 24 % 256,
   n / 2 ^ 32 % 256, n / 2 ^ 40 % 256, n / 2 ^ 48 % 256, n / 2 ^ 56 % 256]

/-- Rust `as u16` on a float value: truncation toward zero, saturating at the
type bounds (negative values map to 0, values above 65535 to 65535). -/
def ratAsU16 (q : ℚ) : Nat := min 65535 (Int.toNat (Int.floor q))

/-- Rust `as u8` on a float value: truncation toward zero, saturating. -/
def ratAsU8 (q : ℚ) : Nat := min 255 (Int.toNat (Int.floor q))

/-- Rust `f32::clamp(0.0, 1.0)`: `if x < min { min } else if x > max { max }
else { x }`. -/
def clampQ (s : ℚ) : ℚ := if s < 0 then 0 else if 1 < s then 1 else s

/-- Modelled from the spec: the board state of `Position` (module
`chess/position.rs`, not present in the sources) — eight bitboards (two
side-occupancy boards at indices 0 and 1, six piece-kind boards at indices
2–7), side to move, en-passant square, castling-rights byte, halfmove clock
and fullmove number.  Only the fields read by the codec are modelled. -/
structure Position where
  bbs : Fin 8 → Nat
  stm : Bool
  enp_sq : Nat
  rights : Nat
  halfm : Nat
  fullm : Nat

/-- Constructor `Position::from_raw` used by the decoder. -/
def Position.from_raw (bbs : Fin 8 → Nat) (stm : Bool) (enp_sq rights halfm fullm : Nat) :
    Position :=
  { bbs := bbs, stm := stm, enp_sq := enp_sq, rights := rights, halfm := halfm, fullm := fullm }

/-- Modelled from the spec: the castling descriptor `Castling` (module
`chess/frc.rs`, not present in the sources) — for each (side, direction) the
originating file of that corner's rook; `rook_files()` yields a 2×2 array of
16-bit values, eight bytes once flattened and serialised little-endian. -/
structure Castling where
  rook_files : Fin 2 → Fin 2 → Nat

/-- Modelled from the spec: the packed 16-bit move code (module
`chess/moves.rs`, not present in the sources); `inner` is the raw packed
value, the canonical sort key of the codec. -/
structure Move where
  inner : Nat
deriving DecidableEq

/-- The `CompressedChessBoard` struct of `format.rs`: four overlapping
XOR-combination bitboards plus the scalar fields of the position. -/
structure CompressedChessBoard where
  bbs : Fin 4 → Nat
  stm : Nat
  enp_sq : Nat
  rights : Nat
  halfm : Nat
  fullm : Nat

/-- `impl From<Position> for CompressedChessBoard` (format.rs lines 115–133). -/
def CompressedChessBoard.ofPosition (board : Position) : CompressedChessBoard :=
  let bbs := board.bbs
  { bbs := ![bbs 1,
             bbs 5 ^^^ bbs 6 ^^^ bbs 7,
             bbs 3 ^^^ bbs 4 ^^^ bbs 7,
             bbs 2 ^^^ bbs 4 ^^^ bbs 6]
    stm := if board.stm then 1 else 0
    enp_sq := board.enp_sq
    rights := board.rights
    halfm := board.halfm
    fullm := board.fullm }

/-- `impl From<CompressedChessBoard> for Position` (format.rs lines 135–162). -/
def Position.ofCompressed (value : CompressedChessBoard) : Position :=
  let qbbs := value.bbs
  let blc := qbbs 0
  let rqk := qbbs 1
  let nbk := qbbs 2
  let pbq := qbbs 3
  let occ := rqk ||| nbk ||| pbq
  let pnb := occ ^^^ qbbs 1
  let prq := occ ^^^ qbbs 2
  let nrk := occ ^^^ qbbs 3
  Position.from_raw
    ![occ ^^^ blc,
      blc,
      pnb &&& prq,
      pnb &&& nrk,
      pnb &&& nbk &&& pbq,
      prq &&& nrk,
      pbq &&& prq &&& rqk,
      nbk &&& rqk]
    (0 < value.stm) value.enp_sq value.rights value.halfm value.fullm

/-- The `SearchData` struct of `format.rs`: best move, scalar score, optional
visit distribution. -/
structure SearchData where
  best_move : Move
  score : ℚ
  visit_distribution : Option (List (Move × Nat))
deriving DecidableEq

/-- `SearchData::new` (format.rs lines 11–30), instantiated at `T = Move`:
the distribution is sorted in place by the move's raw packed code
(`sort_by_key(|(mov, _)| mov.inner())`; `mergeSort` is, like Rust's
`sort_by_key`, a stable ascending sort). -/
def SearchData.new (best_move : Move) (score : ℚ)
    (visit_distribution : Option (List (Move × Nat))) : SearchData :=
  { best_move := best_move
    score := score
    visit_distribution := visit_distribution.map
      (fun dist => dist.mergeSort (fun a b => decide (a.1.inner ≤ b.1.inner))) }

/-- The `MontyFormat` struct of `format.rs`. -/
structure MontyFormat where
  startpos : Position
  castling : Castling
  result : ℚ
  moves : List SearchData

/-- Maximum visit count of a distribution
(`dist.iter().max_by_key(|(_, visits)| visits)…unwrap_or(0)`). -/
def maxVisits (dist : List (Move × Nat)) : Nat :=
  (dist.map Prod.snd).foldr Nat.max 0

/-- One quantized visit value:
`(*visits as f32 * 256.0 / max_visits as f32) as u16`. -/
def scaledVisit (max_visits v : Nat) : Nat :=
  ratAsU16 ((v : ℚ) * 256 / (max_visits : ℚ))

/-- The visit bytes written for one ply: every entry of the distribution, in
stored order, as a 2-byte little-endian quantized value. -/
def visitBytes (dist : List (Move × Nat)) : List Nat :=
  (dist.map (fun e => u16le (scaledVisit (maxVisits dist) e.2))).flatten

/-- Round a rational to the nearest integer, ties to even. -/
def rne (x : ℚ) : ℤ :=
  if x - Int.floor x < 1 / 2 then Int.floor x
  else if 1 / 2 < x - Int.floor x then Int.floor x + 1
  else if Int.floor x % 2 = 0 then Int.floor x else Int.floor x + 1

/-- IEEE-754 binary32 rounding of a rational to the nearest representable
value, ties to even: 24-bit significand, quantum `2 ^ (max (-126) e - 23)`
for a magnitude in binade `e`, which also covers the subnormal range (the
codec's values stay far below the overflow threshold, so infinities are not
modelled). -/
def fl32 (q : ℚ) : ℚ :=
  (rne (q / 2 ^ (max (-126) (Int.log 2 |q|) - 23)) : ℚ)
    * (2 : ℚ) ^ (max (-126) (Int.log 2 |q|) - 23)

/-- The bytes written for one ply record (format.rs lines 82–97): 2-byte move
code, 2-byte quantized score — the `f32` product `score * 65535.0` (rounded
to the nearest representable value by `fl32`) cast with `as u16` —, count
byte (`dist.len() as u8`), then the visit bytes. -/
def recordBytes (d : SearchData) : List Nat :=
  u16le d.best_move.inner ++
  u16le (ratAsU16 (fl32 (d.score * 65535))) ++
  [((d.visit_distribution.map List.length).getD 0) % 256] ++
  (match d.visit_distribution with
   | none => []
   | some dist => visitBytes dist)

/-- The header bytes written before the ply records (format.rs lines 58–75):
the four compressed bitboards, side-to-move byte, en-passant byte, rights
byte, halfmove byte, 2-byte fullmove, the four flattened rook files as 2-byte
values, and the result byte `(result * 2.0) as u8`. -/
def MontyFormat.headerBytes (mf : MontyFormat) : List Nat :=
  let compressed := CompressedChessBoard.ofPosition mf.startpos
  u64le (compressed.bbs 0) ++ u64le (compressed.bbs 1) ++
  u64le (compressed.bbs 2) ++ u64le (compressed.bbs 3) ++
  [compressed.stm % 256] ++ [compressed.enp_sq % 256] ++
  [compressed.rights % 256] ++ [compressed.halfm % 256] ++
  u16le compressed.fullm ++
  u16le (mf.castling.rook_files 0 0) ++ u16le (mf.castling.rook_files 0 1) ++
  u16le (mf.castling.rook_files 1 0) ++ u16le (mf.castling.rook_files 1 1) ++
  [ratAsU8 (mf.result * 2)]

/-- The per-ply loop of `serialise_into_buffer` (format.rs lines 77–98): for
each ply, fail if the score is outside `[0, 1]` (`clamp(0.0,1.0) != score`),
otherwise append the ply's record bytes and continue. -/
def writePlies : List SearchData → List Nat → List Nat × Except String Unit
  | [], acc => (acc, Except.ok ())
  | d :: rest, acc =>
    if clampQ d.score ≠ d.score then
      (acc, Except.error "Score outside valid range!")
    else
      writePlies rest (acc ++ recordBytes d)

/-- `MontyFormat::serialise_into_buffer` (format.rs lines 53–102).  The
result pairs the final contents of the caller-supplied buffer with the
`std::io::Result` outcome: a non-empty buffer is rejected up front, then the
header, the ply records and the 2-byte zero trailer are appended in order. -/
def MontyFormat.serialise_into_buffer (mf : MontyFormat) (writer : List Nat) :
    List Nat × Except String Unit :=
  if writer ≠ [] then
    (writer, Except.error "Buffer is not empty!")
  else
    match writePlies mf.moves (writer ++ mf.headerBytes) with
    | (buf, Except.ok _) => (buf ++ [0, 0], Except.ok ())
    | (buf, Except.error e) => (buf, Except.error e)

/-- `perft` (chess.rs lines 15–38).  The legal-move enumerator
`Position::map_legal_moves` and the state transition `Position::make` live in
modules not present in the sources, so they are taken as parameters.
Modelled from the spec: `legal pos castling` enumerates every legal move of
`pos` exactly once, and `mk pos mov castling` is the successor position
produced by `make`.  Depth 1 counts the legal moves without applying any;
otherwise each legal move is applied to a copy and the recursion at depth−1
is summed.  Depth 0 underflows the `u8` depth in the source and is mapped to
0 here; the claims only concern depth ≥ 1. -/
def perft (legal : Position → Castling → List Move)
    (mk : Position → Move → Castling → Position) (castling : Castling) :
    Position → Nat → Nat
  | _, 0 => 0
  | pos, 1 => (legal pos castling).length
  | pos, (d + 2) =>
    ((legal pos castling).map
      (fun mov => perft legal mk castling (mk pos mov castling) (d + 1))).sum

/-- Wrapping negation on 64 bits (`usize::wrapping_neg` / `u64` `-x`). -/
def wneg64 (x : Nat) : Nat := (2 ^ 64 - x % 2 ^ 64) % 2 ^ 64

/-- Wrapping addition on 64 bits (`wrapping_add`). -/
def wadd64 (a b : Nat) : Nat := (a + b) % 2 ^ 64

/-- Wrapping subtraction on 64 bits (`wrapping_sub`). -/
def wsub64 (a b : Nat) : Nat := (a % 2 ^ 64 + (2 ^ 64 - b % 2 ^ 64)) % 2 ^ 64

/-- The closed-form `in_between` generator (chess/consts.rs lines 82–96),
transcribed operation for operation with explicit 64-bit wrapping. -/
def in_between (sq1 sq2 : Nat) : Nat :=
  let M1 : Nat := 0xFFFFFFFFFFFFFFFF
  let A2A7 : Nat := 0x0001010101010100
  let B2G7 : Nat := 0x0040201008040200
  let H1B7 : Nat := 0x0002040810204080
  let btwn := ((M1 <<< sq1) % 2 ^ 64) ^^^ ((M1 <<< sq2) % 2 ^ 64)
  let file := wadd64 (sq2 &&& 7) (wneg64 (sq1 &&& 7))
  let rank := (wsub64 (sq2 ||| 7) sq1) >>> 3
  let line1 := (wsub64 (file &&& 7) 1) &&& A2A7
  let line2 := line1 + 2 * ((wsub64 (rank &&& 7) 1) >>> 58)
  let line3 := line2 + ((wsub64 ((wsub64 rank file) &&& 15) 1) &&& B2G7)
  let line4 := line3 + ((wsub64 ((wadd64 rank file) &&& 15) 1) &&& H1B7)
  let line5 := (line4 * (btwn &&& wneg64 btwn)) % 2 ^ 64
  line5 &&& btwn

/-- The `IN_BETWEEN` table (chess/consts.rs lines 54–66): entry `(i, j)` is
`in_between i j`. -/
def IN_BETWEEN : Fin 64 → Fin 64 → Nat := fun i j => in_between i.val j.val

/-- Sign of an integer, used by the reference ray walk. -/
def sgnZ (x : Int) : Int := if 0 < x then 1 else if x < 0 then -1 else 0

/-- Reference definition: the list of squares strictly between `a` and `b`,
obtained by a brute-force ray walk — if the two squares share a rank, file or
diagonal, step from `a` toward `b` one square at a time and collect the
interior squares; otherwise the list is empty. -/
def rayBetweenList (a b : Nat) : List Nat :=
  let ra : Int := (a / 8 : Nat)
  let fa : Int := (a % 8 : Nat)
  let rb : Int := (b / 8 : Nat)
  let fb : Int := (b % 8 : Nat)
  let dr := rb - ra
  let df := fb - fa
  if (dr = 0 ∧ df ≠ 0) ∨ (df = 0 ∧ dr ≠ 0) ∨ (dr.natAbs = df.natAbs ∧ dr ≠ 0) then
    let steps := max dr.natAbs df.natAbs
    (List.range (steps - 1)).map (fun k =>
      ((ra + (k + 1) * sgnZ dr) * 8 + (fa + (k + 1) * sgnZ df)).toNat)
  else []

/-- Reference definition: the bitboard of squares strictly between `a` and
`b` via the brute-force ray walk. -/
def in_between_ref (a b : Nat) : Nat :=
  (rayBetweenList a b).foldl (fun acc s => acc ||| (1 <<< s)) 0

/-! Concrete values used to instantiate proved statements. -/

/-- The standard chess starting position (bitboards of `STARTPOS`). -/
def startposPosition : Position :=
  { bbs := ![0x000000000000FFFF, 0xFFFF000000000000, 0x00FF00000000FF00,
             0x4200000000000042, 0x2400000000000024, 0x8100000000000081,
             0x0800000000000008, 0x1000000000000010]
    stm := false
    enp_sq := 0
    rights := 15
    halfm := 0
    fullm := 1 }

/-- Standard-chess rook files: a-file (0) and h-file (7) for both sides. -/
def standardCastling : Castling :=
  { rook_files := fun _ d => if d = 0 then 0 else 7 }

/-- A ply record with an in-range integral score and no distribution. -/
def plyOk : SearchData := { best_move := ⟨3⟩, score := 0, visit_distribution := none }

/-- A ply record with score 2, outside the valid range `[0, 1]`. -/
def plyBad : SearchData := { best_move := ⟨4⟩, score := 2, visit_distribution := none }

/-- A ply record with score 1/2, used to exhibit truncation. -/
def plyHalf : SearchData := { best_move := ⟨3⟩, score := 1 / 2, visit_distribution := none }

/-- A game record with no plies and result 0. -/
def mfEmpty : MontyFormat :=
  { startpos := startposPosition, castling := standardCastling, result := 0, moves := [] }

/-- A game record whose second ply has an out-of-range score. -/
def mfBad : MontyFormat :=
  { startpos := startposPosition, castling := standardCastling, result := 0,
    moves := [plyOk, plyBad] }

/-- A game record with a single ply of score 1/2. -/
def mfHalf : MontyFormat :=
  { startpos := startposPosition, castling := standardCastling, result := 0,
    moves := [plyHalf] }

/-- A visit distribution with a repeated maximum count of 10. -/
def distEx : List (Move × Nat) := [(⟨1⟩, 10), (⟨2⟩, 5), (⟨3⟩, 10)]

/-- A two-move legal-move enumerator used to instantiate the perft recurrence. -/
def legalEx : Position → Castling → List Move := fun _ _ => [⟨5⟩, ⟨9⟩]

/-- A trivial state transition used to instantiate the perft recurrence. -/
def mkEx : Position → Move → Castling → Position := fun pos _ _ => pos

/-! ## Theorems -/

/-- Helper: a bit of a conjunction of disjoint boards is never set in both. -/
theorem testBit_and_false {a b : Nat} (h : a &&& b = 0) (t : Nat) :
    (a.testBit t && b.testBit t) = false := by
  rw [← Nat.testBit_land, h]
  exact Nat.zero_testBit t

/-- Helper: the four XOR-combination boards of the compressed encoding
determine the original eight boards, for any bitboards satisfying the
occupancy invariant (side boards disjoint, piece boards pairwise disjoint,
unions equal).  Stated over raw `Nat` bitboards; proved bit by bit. -/
theorem codec_nat (w bl pw kn bi rk qu kg : Nat)
    (hside : w &&& bl = 0)
    (h23 : pw &&& kn = 0) (h24 : pw &&& bi = 0) (h25 : pw &&& rk = 0)
    (h26 : pw &&& qu = 0) (h27 : pw &&& kg = 0)
    (h34 : kn &&& bi = 0) (h35 : kn &&& rk = 0) (h36 : kn &&& qu = 0)
    (h37 : kn &&& kg = 0)
    (h45 : bi &&& rk = 0) (h46 : bi &&& qu = 0) (h47 : bi &&& kg = 0)
    (h56 : rk &&& qu = 0) (h57 : rk &&& kg = 0)
    (h67 : qu &&& kg = 0)
    (hu : w ||| bl = pw ||| kn ||| bi ||| rk ||| qu ||| kg) :
    (((rk ^^^ qu ^^^ kg) ||| (kn ^^^ bi ^^^ kg) ||| (pw ^^^ bi ^^^ qu)) ^^^ bl = w)
    ∧ ((((rk ^^^ qu ^^^ kg) ||| (kn ^^^ bi ^^^ kg) ||| (pw ^^^ bi ^^^ qu)) ^^^ (rk ^^^ qu ^^^ kg))
        &&& (((rk ^^^ qu ^^^ kg) ||| (kn ^^^ bi ^^^ kg) ||| (pw ^^^ bi ^^^ qu)) ^^^ (kn ^^^ bi ^^^ kg)) = pw)
    ∧ ((((rk ^^^ qu ^^^ kg) ||| (kn ^^^ bi ^^^ kg) ||| (pw ^^^ bi ^^^ qu)) ^^^ (rk ^^^ qu ^^^ kg))
        &&& (((rk ^^^ qu ^^^ kg) ||| (kn ^^^ bi ^^^ kg) ||| (pw ^^^ bi ^^^ qu)) ^^^ (pw ^^^ bi ^^^ qu)) = kn)
    ∧ ((((rk ^^^ qu ^^^ kg) ||| (kn ^^^ bi ^^^ kg) ||| (pw ^^^ bi ^^^ qu)) ^^^ (rk ^^^ qu ^^^ kg))
        &&& (kn ^^^ bi ^^^ kg) &&& (pw ^^^ bi ^^^ qu) = bi)
    ∧ ((((rk ^^^ qu ^^^ kg) ||| (kn ^^^ bi ^^^ kg) ||| (pw ^^^ bi ^^^ qu)) ^^^ (kn ^^^ bi ^^^ kg))
        &&& (((rk ^^^ qu ^^^ kg) ||| (kn ^^^ bi ^^^ kg) ||| (pw ^^^ bi ^^^ qu)) ^^^ (pw ^^^ bi ^^^ qu)) = rk)
    ∧ ((pw ^^^ bi ^^^ qu)
        &&& (((rk ^^^ qu ^^^ kg) ||| (kn ^^^ bi ^^^ kg) ||| (pw ^^^ bi ^^^ qu)) ^^^ (kn ^^^ bi ^^^ kg))
        &&& (rk ^^^ qu ^^^ kg) = qu)
    ∧ ((kn ^^^ bi ^^^ kg) &&& (rk ^^^ qu ^^^ kg) = kg) := by
  refine ⟨?_, ?_, ?_, ?_, ?_, ?_, ?_⟩ <;>
  · apply Nat.eq_of_testBit_eq
    intro t
    have H01 := testBit_and_false hside t
    have H23 := testBit_and_false h23 t
    have H24 := testBit_and_false h24 t
    have H25 := testBit_and_false h25 t
    have H26 := testBit_and_false h26 t
    have H27 := testBit_and_false h27 t
    have H34 := testBit_and_false h34 t
    have H35 := testBit_and_false h35 t
    have H36 := testBit_and_false h36 t
    have H37 := testBit_and_false h37 t
    have H45 := testBit_and_false h45 t
    have H46 := testBit_and_false h46 t
    have H47 := testBit_and_false h47 t
    have H56 := testBit_and_false h56 t
    have H57 := testBit_and_false h57 t
    have H67 := testBit_and_false h67 t
    have HU := congrArg (fun n => n.testBit t) hu
    simp only [Nat.testBit_lor] at HU
    simp only [Nat.testBit_lor, Nat.testBit_xor, Nat.testBit_land]
    revert H01 H23 H24 H25 H26 H27 H34 H35 H36 H37 H45 H46 H47 H56 H57 H67 HU
    generalize w.testBit t = x0
    generalize bl.testBit t = x1
    generalize pw.testBit t = x2
    generalize kn.testBit t = x3
    generalize bi.testBit t = x4
    generalize rk.testBit t = x5
    generalize qu.testBit t = x6
    generalize kg.testBit t = x7
    revert x0 x1 x2 x3 x4 x5 x6 x7
    decide

/-- C1: for every Position whose eight bitboards satisfy the occupancy
invariant (each occupied square in exactly one side board and exactly one
piece-kind board, unions equal), converting to the four-bitboard
`CompressedChessBoard` and back yields identical eight bitboards, side to
move, en-passant square, castling rights, halfmove clock, and fullmove
number. -/
theorem compressed_roundtrip (p : Position)
    (hside : p.bbs 0 &&& p.bbs 1 = 0)
    (hdisj : ∀ i j : Fin 8, 2 ≤ i → 2 ≤ j → i ≠ j → p.bbs i &&& p.bbs j = 0)
    (hunion : p.bbs 0 ||| p.bbs 1
      = p.bbs 2 ||| p.bbs 3 ||| p.bbs 4 ||| p.bbs 5 ||| p.bbs 6 ||| p.bbs 7) :
    ((Position.ofCompressed (CompressedChessBoard.ofPosition p)).bbs 0 = p.bbs 0
     ∧ (Position.ofCompressed (CompressedChessBoard.ofPosition p)).bbs 1 = p.bbs 1
     ∧ (Position.ofCompressed (CompressedChessBoard.ofPosition p)).bbs 2 = p.bbs 2
     ∧ (Position.ofCompressed (CompressedChessBoard.ofPosition p)).bbs 3 = p.bbs 3
     ∧ (Position.ofCompressed (CompressedChessBoard.ofPosition p)).bbs 4 = p.bbs 4
     ∧ (Position.ofCompressed (CompressedChessBoard.ofPosition p)).bbs 5 = p.bbs 5
     ∧ (Position.ofCompressed (CompressedChessBoard.ofPosition p)).bbs 6 = p.bbs 6
     ∧ (Position.ofCompressed (CompressedChessBoard.ofPosition p)).bbs 7 = p.bbs 7)
    ∧ (Position.ofCompressed (CompressedChessBoard.ofPosition p)).stm = p.stm
    ∧ (Position.ofCompressed (CompressedChessBoard.ofPosition p)).enp_sq = p.enp_sq
    ∧ (Position.ofCompressed (CompressedChessBoard.ofPosition p)).rights = p.rights
    ∧ (Position.ofCompressed (CompressedChessBoard.ofPosition p)).halfm = p.halfm
    ∧ (Position.ofCompressed (CompressedChessBoard.ofPosition p)).fullm = p.fullm := by
  have h := codec_nat (p.bbs 0) (p.bbs 1) (p.bbs 2) (p.bbs 3) (p.bbs 4) (p.bbs 5)
    (p.bbs 6) (p.bbs 7) hside
    (hdisj 2 3 (by decide) (by decide) (by decide))
    (hdisj 2 4 (by decide) (by decide) (by decide))
    (hdisj 2 5 (by decide) (by decide) (by decide))
    (hdisj 2 6 (by decide) (by decide) (by decide))
    (hdisj 2 7 (by decide) (by decide) (by decide))
    (hdisj 3 4 (by decide) (by decide) (by decide))
    (hdisj 3 5 (by decide) (by decide) (by decide))
    (hdisj 3 6 (by decide) (by decide) (by decide))
    (hdisj 3 7 (by decide) (by decide) (by decide))
    (hdisj 4 5 (by decide) (by decide) (by decide))
    (hdisj 4 6 (by decide) (by decide) (by decide))
    (hdisj 4 7 (by decide) (by decide) (by decide))
    (hdisj 5 6 (by decide) (by decide) (by decide))
    (hdisj 5 7 (by decide) (by decide) (by decide))
    (hdisj 6 7 (by decide) (by decide) (by decide))
    hunion
  refine ⟨⟨h.1, rfl, h.2.1, h.2.2.1, h.2.2.2.1, h.2.2.2.2.1, h.2.2.2.2.2.1, h.2.2.2.2.2.2⟩,
    ?_, rfl, rfl, rfl, rfl⟩
  cases hs : p.stm <;> simp [Position.ofCompressed, CompressedChessBoard.ofPosition,
    Position.from_raw, hs]

/-- Witness for C1: the standard starting position satisfies the occupancy
invariant and round-trips through the compressed encoding. -/
theorem compressed_roundtrip_witness :
    (startposPosition.bbs 0 &&& startposPosition.bbs 1 = 0
     ∧ (∀ i j : Fin 8, 2 ≤ i → 2 ≤ j → i ≠ j →
          startposPosition.bbs i &&& startposPosition.bbs j = 0)
     ∧ startposPosition.bbs 0 ||| startposPosition.bbs 1
        = startposPosition.bbs 2 ||| startposPosition.bbs 3 ||| startposPosition.bbs 4
          ||| startposPosition.bbs 5 ||| startposPosition.bbs 6 ||| startposPosition.bbs 7)
    ∧ (((Position.ofCompressed (CompressedChessBoard.ofPosition startposPosition)).bbs 0
          = startposPosition.bbs 0
        ∧ (Position.ofCompressed (CompressedChessBoard.ofPosition startposPosition)).bbs 1
          = startposPosition.bbs 1
        ∧ (Position.ofCompressed (CompressedChessBoard.ofPosition startposPosition)).bbs 2
          = startposPosition.bbs 2
        ∧ (Position.ofCompressed (CompressedChessBoard.ofPosition startposPosition)).bbs 3
          = startposPosition.bbs 3
        ∧ (Position.ofCompressed (CompressedChessBoard.ofPosition startposPosition)).bbs 4
          = startposPosition.bbs 4
        ∧ (Position.ofCompressed (CompressedChessBoard.ofPosition startposPosition)).bbs 5
          = startposPosition.bbs 5
        ∧ (Position.ofCompressed (CompressedChessBoard.ofPosition startposPosition)).bbs 6
          = startposPosition.bbs 6
        ∧ (Position.ofCompressed (CompressedChessBoard.ofPosition startposPosition)).bbs 7
          = startposPosition.bbs 7)
       ∧ (Position.ofCompressed (CompressedChessBoard.ofPosition startposPosition)).stm
         = startposPosition.stm
       ∧ (Position.ofCompressed (CompressedChessBoard.ofPosition startposPosition)).enp_sq
         = startposPosition.enp_sq
       ∧ (Position.ofCompressed (CompressedChessBoard.ofPosition startposPosition)).rights
         = startposPosition.rights
       ∧ (Position.ofCompressed (CompressedChessBoard.ofPosition startposPosition)).halfm
         = startposPosition.halfm
       ∧ (Position.ofCompressed (CompressedChessBoard.ofPosition startposPosition)).fullm
         = startposPosition.fullm) :=
  ⟨⟨by decide, by decide, by decide⟩,
   compressed_roundtrip startposPosition (by decide) (by decide) (by decide)⟩

/-- Helper: the per-ply loop succeeds and appends exactly the record bytes of
every ply when all scores are in range. -/
theorem writePlies_all_ok (l : List SearchData) :
    ∀ acc, (∀ d ∈ l, clampQ d.score = d.score) →
      writePlies l acc = (acc ++ (l.map recordBytes).flatten, Except.ok ()) := by
  induction l with
  | nil => intro acc _; simp [writePlies]
  | cons d rest ih =>
    intro acc h
    have hd : clampQ d.score = d.score := h d (by simp)
    rw [writePlies, if_neg (by simpa using hd), ih _ (fun x hx => h x (by simp [hx]))]
    simp

/-- Helper: if the per-ply loop succeeds, every score was in range. -/
theorem writePlies_ok_all (l : List SearchData) :
    ∀ acc, (writePlies l acc).2 = Except.ok () → ∀ d ∈ l, clampQ d.score = d.score := by
  induction l with
  | nil => simp
  | cons d rest ih =>
    intro acc hok x hx
    by_cases hd : clampQ d.score = d.score
    · rcases List.mem_cons.1 hx with rfl | hx'
      · exact hd
      · rw [writePlies, if_neg (by simpa using hd)] at hok
        exact ih _ hok x hx'
    · rw [writePlies, if_pos (by simpa using hd)] at hok
      simp at hok

/-- Helper: the per-ply loop stops at the first out-of-range score, leaving
the records of the preceding plies in the buffer. -/
theorem writePlies_err (pre : List SearchData) :
    ∀ acc (d : SearchData) rest, (∀ x ∈ pre, clampQ x.score = x.score) →
      clampQ d.score ≠ d.score →
      writePlies (pre ++ d :: rest) acc
        = (acc ++ (pre.map recordBytes).flatten, Except.error "Score outside valid range!") := by
  induction pre with
  | nil =>
    intro acc d rest _ hbad
    simp [writePlies, if_pos hbad]
  | cons p pre ih =>
    intro acc d rest h hbad
    have hp : clampQ p.score = p.score := h p (by simp)
    rw [List.cons_append, writePlies, if_neg (by simpa using hp),
      ih _ d rest (fun x hx => h x (by simp [hx])) hbad]
    simp

/-- Helper: the visit bytes of a distribution occupy two bytes per entry. -/
theorem mapflat_u16le_length (m : Nat) (dist : List (Move × Nat)) :
    ((dist.map (fun e => u16le (scaledVisit m e.2))).flatten).length = 2 * dist.length := by
  induction dist with
  | nil => simp
  | cons e rest ih =>
    simp only [List.map_cons, List.flatten_cons, List.length_append, List.length_cons, ih]
    simp [u16le]
    omega

/-- Helper: one ply record is 5 bytes plus two bytes per distribution entry. -/
theorem recordBytes_length (d : SearchData) :
    (recordBytes d).length = 5 + 2 * ((d.visit_distribution.map List.length).getD 0) := by
  cases hv : d.visit_distribution with
  | none => simp [recordBytes, hv, u16le]
  | some dist =>
    have hvb : (visitBytes dist).length = 2 * dist.length := mapflat_u16le_length _ dist
    simp [recordBytes, hv, u16le, hvb]
    omega

/-- Helper: the header is 47 bytes (32 bitboard bytes, 4 scalar bytes, 2
fullmove bytes, 8 rook-file bytes, 1 result byte). -/
theorem headerBytes_length (mf : MontyFormat) : mf.headerBytes.length = 47 := by
  simp [MontyFormat.headerBytes, u64le, u16le]

/-- Helper: the last element of a concatenation is that of its right part. -/
theorem getLast?_append_right {α : Type} (l : List α) {m : List α} {a : α}
    (h : m.getLast? = some a) : (l ++ m).getLast? = some a := by
  rw [List.getLast?_append, h]
  rfl

/-- Helper: the last header byte is the result byte. -/
theorem headerBytes_getLast (mf : MontyFormat) :
    mf.headerBytes.getLast? = some (ratAsU8 (mf.result * 2)) := by
  simp only [MontyFormat.headerBytes]
  repeat apply getLast?_append_right
  rfl

/-- Counterexample for C2: the header written by `serialise_into_buffer` is
47 bytes, not 45 — on a record with no plies the whole stream is 49 bytes
(47-byte header plus 2-byte trailer), where the claim's figure implies 47. -/
theorem serialise_header_len_ctex :
    (mfEmpty.serialise_into_buffer []).2 = Except.ok ()
    ∧ (mfEmpty.serialise_into_buffer []).1.length = 49
    ∧ mfEmpty.headerBytes.length = 47
    ∧ (47 : Nat) ≠ 45 := by
  have h : mfEmpty.serialise_into_buffer []
      = (mfEmpty.headerBytes ++ [0, 0], Except.ok ()) := by
    unfold MontyFormat.serialise_into_buffer
    rw [if_neg (by simp), writePlies_all_ok mfEmpty.moves _ (by intro d hd; simp [mfEmpty] at hd)]
    simp [mfEmpty]
  refine ⟨by rw [h], ?_, headerBytes_length mfEmpty, by decide⟩
  rw [h]
  simp [headerBytes_length mfEmpty]

/-- C2 (amended): for every `MontyFormat` on which `serialise_into_buffer`
succeeds (on an empty buffer, with a result in {0, 1/2, 1}), the produced
byte stream is exactly a 47-byte header — four 64-bit bitboards
little-endian, one side byte, one en-passant byte, one rights byte, one
halfmove byte, a 2-byte fullmove, eight rook-file bytes, one result byte
equal to result×2 — then for each ply in order a record of 2 bytes move code
+ 2 bytes value + 1 count byte + 2×count visit bytes, then a 2-byte all-zero
trailer. -/
theorem serialise_layout (mf : MontyFormat)
    (hres : mf.result = 0 ∨ mf.result = 1 / 2 ∨ mf.result = 1)
    (hok : (mf.serialise_into_buffer []).2 = Except.ok ()) :
    (mf.serialise_into_buffer []).1
      = mf.headerBytes ++ (mf.moves.map recordBytes).flatten ++ [0, 0]
    ∧ mf.headerBytes.length = 47
    ∧ (∀ d ∈ mf.moves, (recordBytes d).length
        = 5 + 2 * ((d.visit_distribution.map List.length).getD 0))
    ∧ mf.headerBytes.getLast? = some (ratAsU8 (mf.result * 2))
    ∧ (ratAsU8 (mf.result * 2) : ℚ) = mf.result * 2 := by
  have hvalid : ∀ d ∈ mf.moves, clampQ d.score = d.score := by
    unfold MontyFormat.serialise_into_buffer at hok
    rw [if_neg (by simp)] at hok
    rcases hwp : writePlies mf.moves ([] ++ mf.headerBytes) with ⟨buf, r⟩
    rw [hwp] at hok
    cases r with
    | ok u => exact writePlies_ok_all mf.moves ([] ++ mf.headerBytes) (by rw [hwp])
    | error e => simp at hok
  refine ⟨?_, headerBytes_length mf, fun d _ => recordBytes_length d,
    headerBytes_getLast mf, ?_⟩
  · unfold MontyFormat.serialise_into_buffer
    rw [if_neg (by simp), writePlies_all_ok mf.moves _ hvalid]
    simp
  · rcases hres with h | h | h <;> (rw [h]; norm_num [ratAsU8]; try simp)

/-- Witness for C2: the empty game record serialises successfully and its
stream has the amended layout. -/
theorem serialise_layout_witness :
    (mfEmpty.result = 0 ∨ mfEmpty.result = 1 / 2 ∨ mfEmpty.result = 1)
    ∧ (mfEmpty.serialise_into_buffer []).2 = Except.ok ()
    ∧ ((mfEmpty.serialise_into_buffer []).1
        = mfEmpty.headerBytes ++ (mfEmpty.moves.map recordBytes).flatten ++ [0, 0]
       ∧ mfEmpty.headerBytes.length = 47
       ∧ (∀ d ∈ mfEmpty.moves, (recordBytes d).length
           = 5 + 2 * ((d.visit_distribution.map List.length).getD 0))
       ∧ mfEmpty.headerBytes.getLast? = some (ratAsU8 (mfEmpty.result * 2))
       ∧ (ratAsU8 (mfEmpty.result * 2) : ℚ) = mfEmpty.result * 2) :=
  ⟨Or.inl rfl, rfl, serialise_layout mfEmpty (Or.inl rfl) rfl⟩

/-- C7: for every `MontyFormat` and every non-empty destination buffer,
`serialise_into_buffer` returns the precondition error and leaves the
buffer's contents unchanged. -/
theorem serialise_nonempty_buffer_error (mf : MontyFormat) (writer : List Nat)
    (h : writer ≠ []) :
    mf.serialise_into_buffer writer = (writer, Except.error "Buffer is not empty!") := by
  rw [MontyFormat.serialise_into_buffer, if_pos h]

/-- Witness for C7: serialising into the one-byte buffer `[7]` fails with
the precondition error and leaves `[7]` unchanged. -/
theorem serialise_nonempty_buffer_error_witness :
    ([7] : List Nat) ≠ []
    ∧ mfEmpty.serialise_into_buffer [7] = ([7], Except.error "Buffer is not empty!") :=
  ⟨by decide, serialise_nonempty_buffer_error mfEmpty [7] (by decide)⟩

/-- Helper: a score outside `[0, 1]` fails the clamp check of the encoder. -/
theorem clampQ_ne_of_out_of_range {s : ℚ} (h : s < 0 ∨ 1 < s) : clampQ s ≠ s := by
  rcases h with h | h
  · intro he
    rw [clampQ, if_pos h] at he
    rw [← he] at h
    exact lt_irrefl 0 h
  · intro he
    rw [clampQ, if_neg (by linarith), if_pos h] at he
    rw [← he] at h
    exact lt_irrefl 1 h

/-- Helper: the per-ply loop reports an error whenever some ply's score fails
the clamp check. -/
theorem writePlies_some_bad (l : List SearchData) :
    ∀ acc, (∃ d ∈ l, clampQ d.score ≠ d.score) →
      ∃ e, (writePlies l acc).2 = Except.error e := by
  induction l with
  | nil => simp
  | cons d rest ih =>
    intro acc ⟨x, hx, hbad⟩
    by_cases hd : clampQ d.score = d.score
    · rcases List.mem_cons.1 hx with rfl | hx'
      · exact absurd hd hbad
      · rw [writePlies, if_neg (by simpa using hd)]
        exact ih _ ⟨x, hx', hbad⟩
    · rw [writePlies, if_pos (by simpa using hd)]
      exact ⟨_, rfl⟩

/-- C4: for every `MontyFormat` containing some ply whose score lies outside
`[0, 1]`, `serialise_into_buffer` returns an error. -/
theorem serialise_score_out_of_range_error (mf : MontyFormat) (writer : List Nat)
    (h : ∃ d ∈ mf.moves, d.score < 0 ∨ 1 < d.score) :
    ∃ e, (mf.serialise_into_buffer writer).2 = Except.error e := by
  by_cases hw : writer = []
  · subst hw
    unfold MontyFormat.serialise_into_buffer
    rw [if_neg (by simp)]
    obtain ⟨d, hd, hout⟩ := h
    obtain ⟨e, he⟩ := writePlies_some_bad mf.moves ([] ++ mf.headerBytes)
      ⟨d, hd, clampQ_ne_of_out_of_range hout⟩
    rcases hwp : writePlies mf.moves ([] ++ mf.headerBytes) with ⟨buf, r⟩
    rw [hwp] at he
    cases r with
    | ok u => simp at he
    | error e' => exact ⟨e', by simp⟩
  · rw [MontyFormat.serialise_into_buffer, if_pos hw]
    exact ⟨_, rfl⟩

/-- Witness for C4: a game record whose second ply has score 2 fails to
serialise. -/
theorem serialise_score_out_of_range_error_witness :
    (∃ d ∈ mfBad.moves, d.score < 0 ∨ 1 < d.score)
    ∧ ∃ e, (mfBad.serialise_into_buffer []).2 = Except.error e := by
  have hyp : ∃ d ∈ mfBad.moves, d.score < 0 ∨ 1 < d.score :=
    ⟨plyBad, by decide, Or.inr (by decide)⟩
  exact ⟨hyp, serialise_score_out_of_range_error mfBad [] hyp⟩

/-- C10: when `serialise_into_buffer` is called with an empty buffer and
fails because the ply after `pre` has a score outside `[0, 1]` (all plies of
`pre` being in range), the error is not atomic — the buffer is left holding
the full 47-byte header and the complete records of the plies of `pre`. -/
theorem serialise_partial_write_on_error (mf : MontyFormat)
    (pre : List SearchData) (bad : SearchData) (rest : List SearchData)
    (hsplit : mf.moves = pre ++ bad :: rest)
    (hpre : ∀ x ∈ pre, clampQ x.score = x.score)
    (hbad : clampQ bad.score ≠ bad.score) :
    mf.serialise_into_buffer []
      = (mf.headerBytes ++ (pre.map recordBytes).flatten,
         Except.error "Score outside valid range!")
    ∧ mf.headerBytes.length = 47 := by
  refine ⟨?_, headerBytes_length mf⟩
  unfold MontyFormat.serialise_into_buffer
  rw [if_neg (by simp), hsplit, writePlies_err pre _ bad rest hpre hbad]
  simp

/-- Witness for C10: serialising a record whose second ply is out of range
leaves the header and the first ply's record in the buffer. -/
theorem serialise_partial_write_on_error_witness :
    (mfBad.moves = [plyOk] ++ plyBad :: []
     ∧ (∀ x ∈ [plyOk], clampQ x.score = x.score)
     ∧ clampQ plyBad.score ≠ plyBad.score)
    ∧ (mfBad.serialise_into_buffer []
        = (mfBad.headerBytes ++ ([plyOk].map recordBytes).flatten,
           Except.error "Score outside valid range!")
       ∧ mfBad.headerBytes.length = 47) :=
  ⟨⟨rfl, by decide, by decide⟩,
   serialise_partial_write_on_error mfBad [plyOk] plyBad [] rfl (by decide) (by decide)⟩

/-- Helper: round-to-nearest-even never exceeds its argument by more than a
half. -/
theorem rne_le (x : ℚ) : (rne x : ℚ) ≤ x + 1 / 2 := by
  unfold rne
  have hf := Int.floor_le x
  have hf2 := Int.lt_floor_add_one x
  split_ifs with h1 h2 h3 <;> push_cast <;> linarith

/-- Helper: a value in `[0, 65535]` lives in binade 15 or below. -/
theorem log2_le_15 {x : ℚ} (h0 : 0 ≤ x) (h1 : x ≤ 65535) : Int.log 2 x ≤ 15 := by
  rcases eq_or_lt_of_le h0 with rfl | hpos
  · simp [Int.log_zero_right]
  · have hm := Int.log_mono_right (b := 2) hpos h1
    have h65 : Int.log 2 (65535 : ℚ) = 15 := by
      have hc : ((65535 : ℕ) : ℚ) = (65535 : ℚ) := by norm_num
      rw [← hc, Int.log_natCast]
      have := Nat.log_eq_of_pow_le_of_lt_pow (b := 2) (m := 15) (n := 65535)
        (by norm_num) (by norm_num)
      exact_mod_cast this
    omega

/-- Helper: the f32 rounding of a value in `[0, 65535]` stays below 65536, so
its truncation fits in 16 bits without saturating. -/
theorem fl32_lt_u16_bound {x : ℚ} (h0 : 0 ≤ x) (h1 : x ≤ 65535) : fl32 x < 65536 := by
  unfold fl32
  have habs : |x| = x := abs_of_nonneg h0
  have he : max (-126) (Int.log 2 |x|) - 23 ≤ -8 := by
    have := log2_le_15 h0 h1
    rw [habs]
    omega
  set e : ℤ := max (-126) (Int.log 2 |x|) - 23 with hedef
  have hu : (0 : ℚ) < (2 : ℚ) ^ e := zpow_pos (by norm_num) e
  have hub : (2 : ℚ) ^ e ≤ (2 : ℚ) ^ (-8 : ℤ) := zpow_le_zpow_right₀ (by norm_num) he
  have h28 : (2 : ℚ) ^ (-8 : ℤ) = 1 / 256 := by norm_num
  rw [h28] at hub
  have hr := rne_le (x / 2 ^ e)
  have hmul : (rne (x / 2 ^ e) : ℚ) * (2 : ℚ) ^ e ≤ (x / 2 ^ e + 1 / 2) * 2 ^ e :=
    mul_le_mul_of_nonneg_right hr hu.le
  have hid : (x / 2 ^ e) * 2 ^ e = x := div_mul_cancel₀ x hu.ne'
  calc (rne (x / 2 ^ e) : ℚ) * (2 : ℚ) ^ e
      ≤ (x / 2 ^ e + 1 / 2) * 2 ^ e := hmul
    _ = x + 2 ^ e / 2 := by rw [add_mul, hid]; ring
    _ < 65536 := by linarith

/-- Helper: 65535/2 lives in binade 14. -/
theorem log2_eval : Int.log 2 ((65535 : ℚ) / 2) = 14 := by
  have hr : (0 : ℚ) < 65535 / 2 := by norm_num
  have hle : (14 : ℤ) ≤ Int.log 2 ((65535 : ℚ) / 2) := by
    rw [← Int.zpow_le_iff_le_log (by norm_num) hr]
    norm_num
  have hlt : Int.log 2 ((65535 : ℚ) / 2) < 15 := by
    rw [← Int.lt_zpow_iff_log_lt (by norm_num) hr]
    norm_num
  omega

/-- Helper: 32767.5 = (1/2)·65535 is exactly representable as an f32 (its
scaled significand 16776960 is an integer below 2^24), so the f32 product at
score 1/2 is exact. -/
theorem fl32_eval_half : fl32 ((65535 : ℚ) / 2) = (65535 : ℚ) / 2 := by
  have habs : |(65535 : ℚ) / 2| = (65535 : ℚ) / 2 := by norm_num
  unfold fl32
  rw [habs, log2_eval]
  norm_num [rne]

/-- Helper: at score 1/2 the quantized stored value is 32767 — the exact f32
product 32767.5 truncated by the `as u16` cast. -/
theorem ratAsU16_fl32_half : ratAsU16 (fl32 ((1 / 2 : ℚ) * 65535)) = 32767 := by
  have h : ((1 / 2 : ℚ) * 65535) = (65535 : ℚ) / 2 := by norm_num
  rw [h, fl32_eval_half, ratAsU16]
  norm_num
  decide

/-- Counterexample for C5: the encoder truncates rather than rounds.  For a
single ply of score 1/2 the f32 product 32767.5 is exact and the stored
16-bit value is 32767 (bytes `[255, 127]` after the header), whereas
round(score × 65535) = round(32767.5) = 32768 (bytes `[0, 128]`). -/
theorem serialise_score_rounding_ctex :
    (mfHalf.serialise_into_buffer []).1 = mfHalf.headerBytes ++ [3, 0, 255, 127, 0, 0, 0]
    ∧ round ((1 / 2 : ℚ) * 65535) = 32768
    ∧ u16le (Int.toNat (round ((1 / 2 : ℚ) * 65535))) = [0, 128] := by
  have hv : clampQ plyHalf.score = plyHalf.score := by norm_num [clampQ, plyHalf]
  have hrb : recordBytes plyHalf = [3, 0, 255, 127, 0] := by
    have hq : ratAsU16 (fl32 (plyHalf.score * 65535)) = 32767 := ratAsU16_fl32_half
    simp only [recordBytes]
    rw [hq]
    norm_num [plyHalf, u16le]
  have hwp : writePlies mfHalf.moves ([] ++ mfHalf.headerBytes)
      = ([] ++ mfHalf.headerBytes ++ recordBytes plyHalf, Except.ok ()) := by
    show writePlies [plyHalf] ([] ++ mfHalf.headerBytes) = _
    rw [writePlies, if_neg (by simpa using hv), writePlies]
  refine ⟨?_, by rw [round_eq]; norm_num, by rw [round_eq]; norm_num [u16le]; decide⟩
  unfold MontyFormat.serialise_into_buffer
  rw [if_neg (by simp), hwp, hrb]
  simp

/-- C5 (amended): for every ply whose score lies in `[0, 1]`, the 16-bit
value stored by `serialise_into_buffer` equals the f32 product score × 65535
— the exact product rounded to the nearest representable f32, ties to even —
truncated toward zero (the Rust `as u16` cast), not rounded to the nearest
integer. -/
theorem serialise_score_truncated (d : SearchData) (h0 : 0 ≤ d.score) (h1 : d.score ≤ 1) :
    ratAsU16 (fl32 (d.score * 65535)) = Int.toNat (Int.floor (fl32 (d.score * 65535)))
    ∧ ((recordBytes d).drop 2).take 2
      = u16le (Int.toNat (Int.floor (fl32 (d.score * 65535)))) := by
  have hx0 : 0 ≤ d.score * 65535 := mul_nonneg h0 (by norm_num)
  have hx1 : d.score * 65535 ≤ 65535 := by nlinarith
  have hlt : fl32 (d.score * 65535) < 65536 := fl32_lt_u16_bound hx0 hx1
  have hfl : Int.floor (fl32 (d.score * 65535)) ≤ 65535 := by
    have hl : Int.floor (fl32 (d.score * 65535)) < 65536 := by
      rw [Int.floor_lt]
      exact_mod_cast hlt
    omega
  have h2 : ratAsU16 (fl32 (d.score * 65535))
      = Int.toNat (Int.floor (fl32 (d.score * 65535))) := by
    rw [ratAsU16]
    exact min_eq_right (Int.toNat_le.mpr (by exact_mod_cast hfl))
  refine ⟨h2, ?_⟩
  simp only [recordBytes, h2, u16le, List.cons_append, List.nil_append]
  rfl

/-- Witness for C5 (amended): a ply of score 0 stores the truncation of the
f32 product 0 × 65535. -/
theorem serialise_score_truncated_witness :
    (0 ≤ plyOk.score ∧ plyOk.score ≤ 1)
    ∧ (ratAsU16 (fl32 (plyOk.score * 65535))
        = Int.toNat (Int.floor (fl32 (plyOk.score * 65535)))
       ∧ ((recordBytes plyOk).drop 2).take 2
         = u16le (Int.toNat (Int.floor (fl32 (plyOk.score * 65535))))) :=
  ⟨⟨by decide, by decide⟩, serialise_score_truncated plyOk (by decide) (by decide)⟩

/-- Helper: the quantized visit value is monotone in the visit count. -/
theorem scaledVisit_mono (m : Nat) {v1 v2 : Nat} (h : v2 ≤ v1) :
    scaledVisit m v2 ≤ scaledVisit m v1 := by
  unfold scaledVisit ratAsU16
  refine min_le_min (le_refl 65535) (Int.toNat_le_toNat (Int.floor_le_floor ?_))
  rcases Nat.eq_zero_or_pos m with rfl | hm
  · simp
  · have hm' : (0 : ℚ) < (m : ℚ) := by exact_mod_cast hm
    refine (div_le_div_iff_of_pos_right hm').mpr ?_
    have hc : (v2 : ℚ) ≤ (v1 : ℚ) := by exact_mod_cast h
    nlinarith

/-- Helper: an entry holding the maximum visit count quantizes to exactly
256. -/
theorem scaledVisit_max (m : Nat) (hm : 0 < m) : scaledVisit m m = 256 := by
  unfold scaledVisit ratAsU16
  have hne : (m : ℚ) ≠ 0 := by exact_mod_cast hm.ne'
  have hq : ((m : ℚ) * 256) / (m : ℚ) = 256 := by
    rw [mul_comm, mul_div_assoc, div_self hne, mul_one]
  rw [hq]
  norm_num
  decide

/-- C6: in a serialised visit distribution with positive maximum input visit
count, every entry holding the maximum count is stored as the quantized value
256, and a strictly larger input visit count is never stored as a strictly
smaller quantized value; the visit bytes are exactly these quantized values
in distribution order. -/
theorem scaled_visits_max_and_monotone (dist : List (Move × Nat))
    (hm : 0 < maxVisits dist) :
    (∀ e ∈ dist, e.2 = maxVisits dist → scaledVisit (maxVisits dist) e.2 = 256)
    ∧ (∀ e1 ∈ dist, ∀ e2 ∈ dist, e2.2 < e1.2 →
        scaledVisit (maxVisits dist) e2.2 ≤ scaledVisit (maxVisits dist) e1.2)
    ∧ visitBytes dist
      = (dist.map (fun e => u16le (scaledVisit (maxVisits dist) e.2))).flatten :=
  ⟨fun _ _ he => by rw [he]; exact scaledVisit_max _ hm,
   fun _ _ _ _ hlt => scaledVisit_mono _ (le_of_lt hlt), rfl⟩

/-- Witness for C6: a three-entry distribution with counts 10, 5, 10. -/
theorem scaled_visits_max_and_monotone_witness :
    0 < maxVisits distEx
    ∧ ((∀ e ∈ distEx, e.2 = maxVisits distEx → scaledVisit (maxVisits distEx) e.2 = 256)
       ∧ (∀ e1 ∈ distEx, ∀ e2 ∈ distEx, e2.2 < e1.2 →
           scaledVisit (maxVisits distEx) e2.2 ≤ scaledVisit (maxVisits distEx) e1.2)
       ∧ visitBytes distEx
         = (distEx.map (fun e => u16le (scaledVisit (maxVisits distEx) e.2))).flatten) :=
  ⟨by decide, scaled_visits_max_and_monotone distEx (by decide)⟩

/-- C3: the distribution stored by `SearchData::new` is sorted in ascending
order of the move's raw packed 16-bit code. -/
theorem searchdata_new_sorted (bm : Move) (score : ℚ) (dist : List (Move × Nat)) :
    List.Pairwise (fun a b : Move × Nat => a.1.inner ≤ b.1.inner)
      (((SearchData.new bm score (some dist)).visit_distribution).getD []) := by
  show List.Pairwise _ (dist.mergeSort (fun a b => decide (a.1.inner ≤ b.1.inner)))
  refine List.Pairwise.imp (fun hab => of_decide_eq_true hab)
    (List.sorted_mergeSort ?_ ?_ dist)
  · intro a b c hab hbc
    simp only [decide_eq_true_eq] at *
    omega
  · intro a b
    simp only [Bool.or_eq_true, decide_eq_true_eq]
    omega

/-- C8: at depth 1, `perft` returns the number of legal moves without
applying any of them; at depth d ≥ 2 it equals the sum over every legal move
of `perft` at depth d−1 on the position obtained by applying the move to a
copy.  Stated for every legal-move enumerator and state transition, which
live in modules not present in the sources. -/
theorem perft_depth_recurrence (legal : Position → Castling → List Move)
    (mk : Position → Move → Castling → Position) (castling : Castling) (pos : Position) :
    perft legal mk castling pos 1 = (legal pos castling).length
    ∧ ∀ d : Nat, 2 ≤ d →
        perft legal mk castling pos d
          = ((legal pos castling).map
              (fun mov => perft legal mk castling (mk pos mov castling) (d - 1))).sum := by
  refine ⟨rfl, ?_⟩
  intro d hd
  obtain ⟨k, rfl⟩ : ∃ k, d = k + 2 := ⟨d - 2, by omega⟩
  rfl

/-- Witness for C8: the recurrence instantiated with a two-move enumerator at
depth 2. -/
theorem perft_depth_recurrence_witness :
    (2 ≤ 2)
    ∧ perft legalEx mkEx standardCastling startposPosition 1
      = (legalEx startposPosition standardCastling).length
    ∧ perft legalEx mkEx standardCastling startposPosition 2
      = ((legalEx startposPosition standardCastling).map
          (fun mov => perft legalEx mkEx standardCastling
            (mkEx startposPosition mov standardCastling) (2 - 1))).sum := by
  have h := perft_depth_recurrence legalEx mkEx standardCastling startposPosition
  exact ⟨by decide, h.1, h.2 2 (by decide)⟩

set_option maxHeartbeats 4000000 in
/-- C9: for every ordered pair of squares, the closed-form `IN_BETWEEN` table
entry equals the brute-force ray walk — the bitboard of the squares strictly
between the two when they share a rank, file, or diagonal, and the empty
bitboard otherwise. -/
theorem in_between_matches_ray_walk :
    ∀ a b : Fin 64, IN_BETWEEN a b = in_between_ref a.val b.val := by decide

/-- Counterexample for C10 (header size): after the failed serialisation of
`mfBad` the buffer holds 52 bytes — the 47-byte header plus the 5-byte first
record — not the 50 bytes that the claimed 45-byte header would give. -/
theorem serialise_partial_len_ctex :
    (mfBad.serialise_into_buffer []).1.length = 47 + 5
    ∧ (recordBytes plyOk).length = 5
    ∧ (47 : Nat) ≠ 45 := by
  have h : mfBad.serialise_into_buffer []
      = (mfBad.headerBytes ++ ([plyOk].map recordBytes).flatten,
         Except.error "Score outside valid range!") := by
    unfold MontyFormat.serialise_into_buffer
    rw [if_neg (by simp), show mfBad.moves = [plyOk] ++ plyBad :: [] from rfl,
      writePlies_err [plyOk] _ plyBad [] (by decide) (by decide)]
    simp
  have hl : (recordBytes plyOk).length = 5 := by
    rw [recordBytes_length]
    rfl
  refine ⟨?_, hl, by decide⟩
  rw [h]
  simp [headerBytes_length mfBad, hl]
